import Mathlib

/-!
Differential Manchester decoder of `core-data-coding`.

A shallow embedding of `CManchesterDifferentialDecoder<uint8_t, uint8_t>::Code`
(`src/data/coding/manchester/differential/decoder.cpp`) and of the bit operations of
`include/util/binary.h` it uses, followed by theorems about them. The encoder, whose body
the sources do not hold, is modelled from the specification.

Conventions of the embedding.

* Machine integers are natural numbers. A `uint8_t` result is reduced with `uint8`
  (`% 256`); a value of C type `int` (32 bit two's complement) is the natural number of
  its bit pattern, so `~x` is `0xFFFFFFFF ^^^ x`.
* Arrays are lists. An access outside an array is a `Fault`, the result `Except.error`:
  the C++ code has undefined behaviour there. `input` and `output` are disjoint buffers.
* `Mem` is the memory the call works on, together with two ghost logs (the input indices
  read and the output bit positions written) that the code itself does not keep.
-/

namespace ManchesterDifferential

/-! ## `util/binary.h` -/

/-- One hot bit value, `#define _OH(bit) (1 << (bit))`: an `int`, exact for `bit ≤ 30`. -/
def _OH (bit : Nat) : Nat := 1 <<< bit

/-- Check bit, `#define _BC(target, bit) ((target & _OH(bit)) >> (bit))`. -/
def _BC (target bit : Nat) : Nat := (target &&& _OH bit) >>> bit

/-- Set bit, `#define _BS(target, bit, setHigh)
(setHigh ? (target |= (1 << (bit))) : (target &= ~(1 << (bit))))`, for a `uint8_t`
target: the operands are promoted to `int`, the result is stored back into the 8 bit
target. The value returned is the new value of `target`. -/
def _BS (target bit : Nat) (setHigh : Bool) : Nat :=
  if setHigh then (target ||| (1 <<< bit)) % 256
  else (target &&& (0xFFFFFFFF ^^^ (1 <<< bit))) % 256

/-! ## `decoder.cpp` -/

/-- Conversion of an `int` value to `uint8_t`. -/
def uint8 (x : Int) : Nat := (x % 256).toNat

/-- Line 42: `uint8_t numDataPrimitiveBits = sizeof(DATA_PRIMITIVE_TYPE) * 8;` -/
def numDataPrimitiveBits (sizeofData : Nat) : Nat := uint8 ((sizeofData : Int) * 8)

/-- Line 43: `uint8_t maxBitIndex = numDataPrimitiveBits - 1;` -/
def maxBitIndex (sizeofData : Nat) : Nat := uint8 ((numDataPrimitiveBits sizeofData : Int) - 1)

/-- Line 50: `uint8_t inputBit = numDataPrimitiveBits - 2 - j;` -/
def inputBit (sizeofData j : Nat) : Nat :=
  uint8 ((numDataPrimitiveBits sizeofData : Int) - 2 - (j : Int))

/-- Line 52: `ARRAY_INDEX_TYPE outputPrimitiveIndex = i / 2;` -/
def outputPrimitiveIndex (i : Nat) : Nat := i / 2

/-- Line 53: `uint8_t outputBit = maxBitIndex - ((i % 2) * numDataPrimitiveBits + j) / 2;`
The operands are promoted to `int`; the quotient is of non-negative values. -/
def outputBit (sizeofData i j : Nat) : Nat :=
  uint8 ((maxBitIndex sizeofData : Int)
    - (((i % 2) * numDataPrimitiveBits sizeofData + j) / 2 : Nat))

/-- The value of `sizeof(uint8_t)`: the only instantiation of the decoder is
`template class CManchesterDifferentialDecoder<uint8_t, uint8_t>;`. -/
def sizeofUint8 : Nat := 1

/-- An access outside a buffer (undefined behaviour of the C++ code), or an inner loop
that was still running when its fuel ran out. -/
inductive Fault where
  | inputOutOfBounds
  | outputOutOfBounds
  | outOfFuel
  deriving DecidableEq, Repr

/-- The two buffers of a call, and the ghost logs of the accesses made so far:
`reads` holds the index of every `input[i]` read, `writes` the pair
`(outputPrimitiveIndex, outputBit)` of every `_BS`. -/
structure Mem where
  input : List Nat
  output : List Nat
  reads : List Nat
  writes : List (Nat × Nat)
  deriving DecidableEq, Repr

/-- The body of the inner loop (lines 50 to 59) for the counters `i` and `j`. -/
def loopBody (i j : Nat) (m : Mem) : Except Fault Mem :=
  let inBit := inputBit sizeofUint8 j
  let outIndex := outputPrimitiveIndex i
  let outBit := outputBit sizeofUint8 i j
  match m.input[i]? with
  | none => .error .inputOutOfBounds
  | some word =>
    match m.output[outIndex]? with
    | none => .error .outputOutOfBounds
    | some target =>
      .ok { m with
            output := m.output.set outIndex
              (_BS target outBit (decide (_BC word (inBit + 1) ≠ _BC word inBit)))
            reads := m.reads ++ [i, i]
            writes := m.writes ++ [(outIndex, outBit)] }

/-- Lines 49 to 60: `for (uint8_t j = 0; j < numDataPrimitiveBits; j += 2) ...`, started
at `j`. The
counter is a `uint8_t`, so `j += 2` is taken modulo 256; `fuel` bounds the number of
times the loop condition is evaluated. -/
def innerLoop (i : Nat) : Nat → Nat → Mem → Except Fault Mem
  | 0, _, _ => .error .outOfFuel
  | fuel + 1, j, m =>
    if j < numDataPrimitiveBits sizeofUint8 then
      match loopBody i j m with
      | .error e => .error e
      | .ok m' => innerLoop i fuel (uint8 ((j : Int) + 2)) m'
    else .ok m

/-- Lines 46 to 61: `for (ARRAY_INDEX_TYPE i = 0; i < inLength; i++) ...`. The counter
stays below
`inLength`, which fits the index type, so `i++` never wraps; the loop runs its body for
`i = 0, 1, ..., inLength - 1`. A `uint8_t` counter below a `uint8_t` bound takes at most
128 even values, so 129 evaluations of the inner loop condition are enough whenever
the inner loop terminates. -/
def outerLoop (inLength : Nat) (m : Mem) : Except Fault Mem :=
  (List.range inLength).foldlM (fun m i => innerLoop i 129 0 m) m

/-- The call `CManchesterDifferentialDecoder<uint8_t, uint8_t>::Code(input, inLength, output)` run
on the memory holding `input` and `output`, the logs empty. -/
def run (input : List Nat) (inLength : Nat) (output : List Nat) : Except Fault Mem :=
  outerLoop inLength { input := input, output := output, reads := [], writes := [] }

/-- The output buffer after `Code(input, inLength, output)`. -/
def Code (input : List Nat) (inLength : Nat) (output : List Nat) : Except Fault (List Nat) :=
  (run input inLength output).map (fun m => m.output)

/-! ## Vocabulary of the specification -/

/-- Flat bit `p` of a word sequence, MSB first: bit `7 - p mod 8` of word `p / 8`
(the bit of a word that is not there is `false`). -/
def flatBit (ws : List Nat) (p : Nat) : Bool := (ws.getD (p / 8) 0).testBit (7 - p % 8)

/-- Flat position of bit `b` of word `k`, the inverse of the indexing of `flatBit`. -/
def flatPos (w : Nat × Nat) : Nat := 8 * w.1 + (7 - w.2)

/-- The value the loop body stores for the counter `j` when the input word is `word`:
whether bits `inputBit + 1` and `inputBit` of the word differ. -/
def decodedBit (word j : Nat) : Bool :=
  decide (_BC word (inputBit sizeofUint8 j + 1) ≠ _BC word (inputBit sizeofUint8 j))

/-- The four `_BS` of one run of the inner loop, applied in order to the output word
`target`, for the outer counter `i` and the input word `word`. -/
def wordStep (i word target : Nat) : Nat :=
  _BS (_BS (_BS (_BS target (outputBit sizeofUint8 i 0) (decodedBit word 0))
    (outputBit sizeofUint8 i 2) (decodedBit word 2))
    (outputBit sizeofUint8 i 4) (decodedBit word 4))
    (outputBit sizeofUint8 i 6) (decodedBit word 6)

/-- The output bit positions one run of the inner loop writes, in order. -/
def wordWrites (i : Nat) : List (Nat × Nat) :=
  [(outputPrimitiveIndex i, outputBit sizeofUint8 i 0),
   (outputPrimitiveIndex i, outputBit sizeofUint8 i 2),
   (outputPrimitiveIndex i, outputBit sizeofUint8 i 4),
   (outputPrimitiveIndex i, outputBit sizeofUint8 i 6)]

/-- The decoded bit the specification asks for at flat position `p` of the output:
whether flat bits `2 p` and `2 p + 1` of the input differ. -/
def decodeFlat (input : List Nat) (p : Nat) : Bool :=
  flatBit input (2 * p) != flatBit input (2 * p + 1)

/-- What holds of the memory `m` after the outer loop has run for `i = 0, ..., k - 1` on
the buffers `input` and `output`: the input is as it was, the output has its length, every
read was of a word below `k`, the writes went to flat positions `0, ..., 4 k - 1` in this
order, and bit `c` of output word `q` is the decoded bit when its flat position is below
`4 k`, and the bit it was before otherwise (nothing above bit 7 survives in a word that
was written). -/
structure DecodedUpTo (input output : List Nat) (k : Nat) (m : Mem) : Prop where
  input_eq : m.input = input
  length_eq : m.output.length = output.length
  reads_lt : ∀ r ∈ m.reads, r < k
  reads_length : m.reads.length = 8 * k
  writes_flat : m.writes.map flatPos = List.range (4 * k)
  writes_lt : ∀ p ∈ m.writes, p.1 < (k + 1) / 2 ∧ p.2 < 8
  bits : ∀ q c, (m.output.getD q 0).testBit c =
    if c < 8 ∧ 8 * q + (7 - c) < 4 * k then decodeFlat input (8 * q + (7 - c))
    else if q < (k + 1) / 2 then (decide (c < 8) && (output.getD q 0).testBit c)
    else (output.getD q 0).testBit c

/-! ## The encoder, from the specification -/

/-- Modelled from the spec: the body of `CManchesterDifferentialEncoder::Code` is not in
the sources (`encoder.h` only declares it). Section 4.2: every data bit produces two
encoded bits; the level of the current symbol continues from the final level of the
previous symbol, and a transition in the middle of the symbol signals the bit (`differ`
is `1`, the polarity of the decoder). `level` is the running state, the last line bit
emitted. -/
def encodeBits (level : Bool) : List Bool → List Bool
  | [] => []
  | d :: ds => level :: (level != d) :: encodeBits (level != d) ds

/-- Modelled from the spec: the bits of an 8 bit data word in the order the encoder (whose
body is not in the sources) consumes them, most significant first (section 3). -/
def wordBits (w : Nat) : List Bool := (List.range 8).map (fun k => w.testBit (7 - k))

/-- Modelled from the spec: the encoded word the encoder (whose body is not in the
sources) stores for the line bits `bs`, most significant first (section 3). -/
def packByte (bs : List Bool) : Nat := bs.foldl (fun acc b => 2 * acc + b.toNat) 0

/-- Modelled from the spec: the encoded words of a data stream (section 4.2). Each data
word gives 16 line bits, packed MSB first into two encoded words; the running level is
carried from one word to the next. -/
def encodeWords (level : Bool) : List Nat → List Nat
  | [] => []
  | w :: ws =>
    let line := encodeBits level (wordBits w)
    packByte (line.take 8) :: packByte (line.drop 8) :: encodeWords (line.getLastD level) ws

/-- Modelled from the spec: `Encode(input, inputLength, output)` of section 4.2, the body
of `CManchesterDifferentialEncoder::Code` not being in the sources. The encoded words of
the first `inLength` data words replace the first `2 * inLength` words of `output`; the
running level starts at the fixed `initialLevel`. Outside its capacity precondition
the call is a fault. -/
def Encode (initialLevel : Bool) (input : List Nat) (inLength : Nat) (output : List Nat) :
    Except Fault (List Nat) :=
  if input.length < inLength then .error .inputOutOfBounds
  else if output.length < 2 * inLength then .error .outputOutOfBounds
  else .ok (encodeWords initialLevel (input.take inLength) ++ output.drop (2 * inLength))

/-! ## More of `util/binary.h` and of the index arithmetic -/

/-- Create bit mask, `#define _BM(offset, length) (((1 << length) - 1) << offset)`: an
`int`, exact while `offset + length ≤ 31`. -/
def _BM (offset length : Nat) : Nat := ((1 <<< length) - 1) <<< offset

/-- Create bit range,
`#define _BR(lsbOffset, length, value) ((value << lsbOffset) & _BM(lsbOffset, length))`.
The shifted value is kept as a 32 bit pattern. -/
def _BR (lsbOffset length value : Nat) : Nat :=
  ((value <<< lsbOffset) % 2 ^ 32) &&& _BM lsbOffset length

/-- Check bit range, `#define _BCR(target, lsbOffset, length)
((target & (_BM(lsbOffset, length))) >> lsbOffset)`. -/
def _BCR (target lsbOffset length : Nat) : Nat :=
  (target &&& _BM lsbOffset length) >>> lsbOffset

/-- Set bit range, `#define _BSR(target, lsbOffset, length, value)
(target = ((target & ~_BM(lsbOffset, length)) | _BR(lsbOffset, length, value)))`, for a
`uint8_t` target: the result is stored back into the 8 bit target. The value returned is
the new value of `target`. -/
def _BSR (target lsbOffset length value : Nat) : Nat :=
  ((target &&& (0xFFFFFFFF ^^^ _BM lsbOffset length)) ||| _BR lsbOffset length value) % 256

/-- The loop of `__binary_parity_even` (lines 70 to 72 of `binary.h`),
`for (uint8_t i = 0; i < (sizeof(data) * 8); i++) parityEven ^= _BC(data, i);`, started
at `i` with the accumulator `parityEven`. The bound is a `size_t` and is not reduced; the
counter and the accumulator are `uint8_t`. `fuel` bounds the number of times the loop
condition is evaluated; the result is `none` when it runs out. -/
def parityEvenLoop (sizeofData data : Nat) : Nat → Nat → Nat → Option Nat
  | 0, _, _ => none
  | fuel + 1, i, parityEven =>
    if i < sizeofData * 8 then
      parityEvenLoop sizeofData data fuel (uint8 ((i : Int) + 1))
        (uint8 ((parityEven ^^^ _BC data i : Nat) : Int))
    else some parityEven

/-- The function `__binary_parity_even(TYPE data)` of `binary.h` for a `TYPE` of
`sizeofData` bytes: `uint8_t parityEven = 0;`, the loop, `return parityEven;`. A `uint8_t`
counter takes 256 values, so 257 evaluations of the loop condition are enough whenever
the loop terminates. -/
def __binary_parity_even (sizeofData data : Nat) : Option Nat :=
  parityEvenLoop sizeofData data 257 0 0

/-- The function `__binary_parity_odd(TYPE data)` of `binary.h`:
`return !__binary_parity_even(data);`, the `bool` converted to `uint8_t`. -/
def __binary_parity_odd (sizeofData data : Nat) : Option Nat :=
  (__binary_parity_even sizeofData data).map (fun p => if p = 0 then 1 else 0)

/-- The values the counter of the inner loop of `Code` takes, in order, for a data type of
`sizeofData` bytes: the header `for (uint8_t j = 0; j < numDataPrimitiveBits; j += 2)` of
line 49 alone, started at `j`, with the fuel of `innerLoop`. -/
def innerCounters (sizeofData : Nat) : Nat → Nat → List Nat
  | 0, _ => []
  | fuel + 1, j =>
    if j < numDataPrimitiveBits sizeofData then
      j :: innerCounters sizeofData fuel (uint8 ((j : Int) + 2))
    else []

/-- Bitwise complement `~w` of a `uint8_t` word, stored into a `uint8_t`. -/
def complement8 (w : Nat) : Nat := (0xFFFFFFFF ^^^ w) % 256

/-- Number of set bits among bits 7 to 0 of a word. -/
def popcount8 (data : Nat) : Nat := ((List.range 8).filter (fun k => data.testBit k)).length

/-- Exclusive or of bits 0 to 7 of a word. -/
def xorBits8 (data : Nat) : Bool :=
  (List.range 8).foldl (fun acc k => xor acc (data.testBit k)) false

/-! ## Bit level facts -/

theorem BC_eq (w b : Nat) : _BC w b = (w.testBit b).toNat := by
  apply Nat.eq_of_testBit_eq
  intro i
  simp only [_BC, _OH, Nat.one_shiftLeft, Nat.testBit_shiftRight, Nat.testBit_and,
    Nat.testBit_two_pow, Nat.testBit_bool_to_nat]
  by_cases hi : i = 0
  · subst hi; simp
  · have : ¬ (b = b + i) := by omega
    simp [hi, this]

theorem BC_ne (w a b : Nat) : decide (_BC w a ≠ _BC w b) = (w.testBit a != w.testBit b) := by
  rw [BC_eq, BC_eq]
  cases w.testBit a <;> cases w.testBit b <;> rfl

theorem testBit_mod_256 (x c : Nat) :
    (x % 256).testBit c = (decide (c < 8) && x.testBit c) :=
  Nat.testBit_mod_two_pow x 8 c

theorem testBit_allOnes32 (c : Nat) : (0xFFFFFFFF : Nat).testBit c = decide (c < 32) :=
  Nat.testBit_two_pow_sub_one 32 c

theorem BS_testBit (t b : Nat) (v : Bool) (c : Nat) :
    (_BS t b v).testBit c = (decide (c < 8) && (if c = b then v else t.testBit c)) := by
  by_cases hc : c < 8
  · have hc32 : c < 32 := by omega
    cases v
    · by_cases hcb : c = b
      · subst hcb
        simp [_BS, testBit_mod_256, testBit_allOnes32, Nat.one_shiftLeft,
          Nat.testBit_two_pow, hc, hc32]
      · have : ¬ (b = c) := fun h => hcb h.symm
        simp [_BS, testBit_mod_256, testBit_allOnes32, Nat.one_shiftLeft,
          Nat.testBit_two_pow, hc, hc32, hcb, this]
    · by_cases hcb : c = b
      · subst hcb
        simp [_BS, testBit_mod_256, Nat.one_shiftLeft, Nat.testBit_two_pow, hc]
      · have : ¬ (b = c) := fun h => hcb h.symm
        simp [_BS, testBit_mod_256, Nat.one_shiftLeft, Nat.testBit_two_pow, hc, hcb, this]
  · cases v <;> simp [_BS, testBit_mod_256, hc]

theorem BS_lt (t b : Nat) (v : Bool) : _BS t b v < 256 := by
  unfold _BS
  split <;> exact Nat.mod_lt _ (by norm_num)

/-! ## Index arithmetic of the `uint8_t` instantiation -/

theorem numBits_eq : numDataPrimitiveBits sizeofUint8 = 8 := by decide

theorem outputBit_even (i j : Nat) (hi : i % 2 = 0) (hj : j < 8) :
    outputBit sizeofUint8 i j = 7 - j / 2 := by
  unfold outputBit
  rw [hi]
  interval_cases j <;> decide

theorem outputBit_odd (i j : Nat) (hi : i % 2 = 1) (hj : j < 8) :
    outputBit sizeofUint8 i j = 3 - j / 2 := by
  unfold outputBit
  rw [hi]
  interval_cases j <;> decide

theorem decodedBit_eq (w j : Nat) (hj : j < 7) :
    decodedBit w j = (w.testBit (7 - j) != w.testBit (6 - j)) := by
  unfold decodedBit
  rw [BC_ne]
  interval_cases j <;> rfl

/-- Bit `c` of an output word after one run of the inner loop: the nibble selected by
the parity of `i` holds the four decoded bits of the input word, the other nibble is
kept, and nothing is stored above bit 7. -/
theorem wordStep_testBit (i w t c : Nat) :
    (wordStep i w t).testBit c =
      if c < 8 ∧ c / 4 + i % 2 = 1 then
        (w.testBit (2 * (c % 4) + 1) != w.testBit (2 * (c % 4)))
      else (decide (c < 8) && t.testBit c) := by
  unfold wordStep
  simp only [BS_testBit]
  by_cases hc : c < 8
  · rcases Nat.mod_two_eq_zero_or_one i with hi | hi
    · simp only [outputBit_even i _ hi (by norm_num : (0:Nat) < 8),
        outputBit_even i _ hi (by norm_num : (2:Nat) < 8),
        outputBit_even i _ hi (by norm_num : (4:Nat) < 8),
        outputBit_even i _ hi (by norm_num : (6:Nat) < 8), hi,
        decodedBit_eq w _ (by norm_num : (0:Nat) < 7),
        decodedBit_eq w _ (by norm_num : (2:Nat) < 7),
        decodedBit_eq w _ (by norm_num : (4:Nat) < 7),
        decodedBit_eq w _ (by norm_num : (6:Nat) < 7)]
      interval_cases c <;> simp
    · simp only [outputBit_odd i _ hi (by norm_num : (0:Nat) < 8),
        outputBit_odd i _ hi (by norm_num : (2:Nat) < 8),
        outputBit_odd i _ hi (by norm_num : (4:Nat) < 8),
        outputBit_odd i _ hi (by norm_num : (6:Nat) < 8), hi,
        decodedBit_eq w _ (by norm_num : (0:Nat) < 7),
        decodedBit_eq w _ (by norm_num : (2:Nat) < 7),
        decodedBit_eq w _ (by norm_num : (4:Nat) < 7),
        decodedBit_eq w _ (by norm_num : (6:Nat) < 7)]
      interval_cases c <;> simp
  · simp [hc]

theorem wordStep_lt (i w t : Nat) : wordStep i w t < 256 := BS_lt _ _ _

theorem wordWrites_flatPos (i : Nat) :
    (wordWrites i).map flatPos = [4 * i, 4 * i + 1, 4 * i + 2, 4 * i + 3] := by
  rcases Nat.mod_two_eq_zero_or_one i with hi | hi
  · simp only [wordWrites, outputPrimitiveIndex, flatPos, List.map,
      outputBit_even i _ hi (by norm_num : (0:Nat) < 8),
      outputBit_even i _ hi (by norm_num : (2:Nat) < 8),
      outputBit_even i _ hi (by norm_num : (4:Nat) < 8),
      outputBit_even i _ hi (by norm_num : (6:Nat) < 8)]
    norm_num
    omega
  · simp only [wordWrites, outputPrimitiveIndex, flatPos, List.map,
      outputBit_odd i _ hi (by norm_num : (0:Nat) < 8),
      outputBit_odd i _ hi (by norm_num : (2:Nat) < 8),
      outputBit_odd i _ hi (by norm_num : (4:Nat) < 8),
      outputBit_odd i _ hi (by norm_num : (6:Nat) < 8)]
    norm_num
    omega

/-! ## The inner loop -/

theorem innerLoop_step (i fuel j : Nat) (inp out rd : List Nat) (wr : List (Nat × Nat))
    (w t : Nat) (hj : j < 8) (hw : inp[i]? = some w) (ht : out[i / 2]? = some t) :
    innerLoop i (fuel + 1) j ⟨inp, out, rd, wr⟩ =
      innerLoop i fuel (uint8 ((j : Int) + 2))
        ⟨inp, out.set (i / 2) (_BS t (outputBit sizeofUint8 i j) (decodedBit w j)),
          rd ++ [i, i], wr ++ [(outputPrimitiveIndex i, outputBit sizeofUint8 i j)]⟩ := by
  simp only [innerLoop, numBits_eq, hj, if_true, loopBody, outputPrimitiveIndex, hw, ht,
    decodedBit]

theorem innerLoop_done (i fuel j : Nat) (m : Mem) (hj : ¬ j < 8) :
    innerLoop i (fuel + 1) j m = .ok m := by
  simp only [innerLoop, numBits_eq, hj, if_false]

theorem innerLoop_step_set (i fuel j : Nat) (inp out rd : List Nat) (wr : List (Nat × Nat))
    (w t : Nat) (hj : j < 8) (hw : inp[i]? = some w) (hlen : i / 2 < out.length) :
    innerLoop i (fuel + 1) j ⟨inp, out.set (i / 2) t, rd, wr⟩ =
      innerLoop i fuel (uint8 ((j : Int) + 2))
        ⟨inp, out.set (i / 2) (_BS t (outputBit sizeofUint8 i j) (decodedBit w j)),
          rd ++ [i, i], wr ++ [(outputPrimitiveIndex i, outputBit sizeofUint8 i j)]⟩ := by
  have ht : (out.set (i / 2) t)[i / 2]? = some t := by simp [List.getElem?_set, hlen]
  rw [innerLoop_step i fuel j inp (out.set (i / 2) t) rd wr w t hj hw ht, List.set_set]

theorem set_getElem?_self (out : List Nat) (k t : Nat) (ht : out[k]? = some t) :
    out.set k t = out := by
  apply List.ext_getElem?
  intro q
  by_cases hq : k = q
  · subst hq
    rcases List.getElem?_eq_some_iff.mp ht with ⟨h, _⟩
    simp [List.getElem?_set, h, ht]
  · simp [List.getElem?_set, hq]

/-- One run of the inner loop on in-bounds indices terminates without a fault: it reads
`input[i]`, replaces output word `i / 2` by `wordStep` of it, and logs four writes. -/
theorem innerLoop_ok (i : Nat) (inp out rd : List Nat) (wr : List (Nat × Nat)) (w t : Nat)
    (hw : inp[i]? = some w) (ht : out[i / 2]? = some t) :
    innerLoop i 129 0 ⟨inp, out, rd, wr⟩ = .ok
      ⟨inp, out.set (i / 2) (wordStep i w t), rd ++ [i, i, i, i, i, i, i, i],
        wr ++ wordWrites i⟩ := by
  have hlen : i / 2 < out.length := by
    rcases List.getElem?_eq_some_iff.mp ht with ⟨h, _⟩
    exact h
  have e0 : uint8 (((0 : Nat) : Int) + 2) = 2 := by decide
  have e2 : uint8 (((2 : Nat) : Int) + 2) = 4 := by decide
  have e4 : uint8 (((4 : Nat) : Int) + 2) = 6 := by decide
  have e6 : uint8 (((6 : Nat) : Int) + 2) = 8 := by decide
  conv_lhs => rw [← set_getElem?_self out (i / 2) t ht]
  rw [innerLoop_step_set i 128 0 inp out rd wr w t (by norm_num) hw hlen, e0]
  rw [innerLoop_step_set i 127 2 inp out _ _ w _ (by norm_num) hw hlen, e2]
  rw [innerLoop_step_set i 126 4 inp out _ _ w _ (by norm_num) hw hlen, e4]
  rw [innerLoop_step_set i 125 6 inp out _ _ w _ (by norm_num) hw hlen, e6]
  rw [innerLoop_done i 124 8 _ (by norm_num)]
  simp [wordStep, wordWrites]

/-! ## The outer loop -/

theorem outerLoop_succ (n : Nat) (m : Mem) :
    outerLoop (n + 1) m = (outerLoop n m).bind (fun m' => innerLoop n 129 0 m') := by
  unfold outerLoop
  rw [List.range_succ, List.foldlM_append]
  cases h : List.foldlM (fun m i => innerLoop i 129 0 m) m (List.range n) with
  | error e => rfl
  | ok m' =>
    show (innerLoop n 129 0 m').bind _ = innerLoop n 129 0 m'
    cases innerLoop n 129 0 m' <;> rfl

theorem wordWrites_lt (i : Nat) : ∀ p ∈ wordWrites i, p.1 = i / 2 ∧ p.2 < 8 := by
  intro p hp
  rcases Nat.mod_two_eq_zero_or_one i with hi | hi
  · simp only [wordWrites, outputPrimitiveIndex,
      outputBit_even i _ hi (by norm_num : (0:Nat) < 8),
      outputBit_even i _ hi (by norm_num : (2:Nat) < 8),
      outputBit_even i _ hi (by norm_num : (4:Nat) < 8),
      outputBit_even i _ hi (by norm_num : (6:Nat) < 8), List.mem_cons,
      List.mem_singleton, List.not_mem_nil, or_false] at hp
    rcases hp with h | h | h | h <;> subst h <;> simp
  · simp only [wordWrites, outputPrimitiveIndex,
      outputBit_odd i _ hi (by norm_num : (0:Nat) < 8),
      outputBit_odd i _ hi (by norm_num : (2:Nat) < 8),
      outputBit_odd i _ hi (by norm_num : (4:Nat) < 8),
      outputBit_odd i _ hi (by norm_num : (6:Nat) < 8), List.mem_cons,
      List.mem_singleton, List.not_mem_nil, or_false] at hp
    rcases hp with h | h | h | h <;> subst h <;> simp

theorem range_four_succ (k : Nat) :
    List.range (4 * (k + 1)) = List.range (4 * k) ++ [4 * k, 4 * k + 1, 4 * k + 2, 4 * k + 3] := by
  rw [show 4 * (k + 1) = 4 * k + 1 + 1 + 1 + 1 from by ring]
  simp [List.range_succ]

theorem decodeFlat_word (input : List Nat) (k c : Nat) (hc : c < 8)
    (hn : c / 4 + k % 2 = 1) :
    decodeFlat input (8 * (k / 2) + (7 - c)) =
      ((input.getD k 0).testBit (2 * (c % 4) + 1) != (input.getD k 0).testBit (2 * (c % 4))) := by
  unfold decodeFlat flatBit
  have h1 : 2 * (8 * (k / 2) + (7 - c)) / 8 = k := by omega
  have h2 : 7 - 2 * (8 * (k / 2) + (7 - c)) % 8 = 2 * (c % 4) + 1 := by omega
  have h3 : (2 * (8 * (k / 2) + (7 - c)) + 1) / 8 = k := by omega
  have h4 : 7 - (2 * (8 * (k / 2) + (7 - c)) + 1) % 8 = 2 * (c % 4) := by omega
  rw [h1, h2, h3, h4]

theorem getD_set_self (out : List Nat) (k x : Nat) (h : k < out.length) :
    (out.set k x).getD k 0 = x := by
  simp [List.getD_eq_getElem?_getD, List.getElem?_set, h]

theorem getD_set_ne (out : List Nat) (k q x : Nat) (h : q ≠ k) :
    (out.set k x).getD q 0 = out.getD q 0 := by
  have : ¬ (k = q) := fun e => h e.symm
  simp [List.getD_eq_getElem?_getD, List.getElem?_set, this]

/-- One more run of the outer loop body keeps the invariant. -/
theorem decodedUpTo_step (input output : List Nat) (k : Nat) (m : Mem)
    (h : DecodedUpTo input output k m) (hk : k < input.length)
    (hout : k / 2 < output.length) :
    ∃ m', innerLoop k 129 0 m = .ok m' ∧ DecodedUpTo input output (k + 1) m' := by
  obtain ⟨inp, out, rd, wr⟩ := m
  obtain ⟨hinp, hlen, hrd, hrdl, hwf, hwl, hbits⟩ := h
  simp only at hinp hlen hrd hrdl hwf hwl hbits
  subst hinp
  have hlen' : k / 2 < out.length := by omega
  have hw : inp[k]? = some (inp.getD k 0) := by
    simp [List.getD_eq_getElem?_getD, List.getElem?_eq_getElem hk]
  have ht : out[k / 2]? = some (out.getD (k / 2) 0) := by
    simp [List.getD_eq_getElem?_getD, List.getElem?_eq_getElem hlen']
  refine ⟨_, innerLoop_ok k inp out rd wr _ _ hw ht, ?_⟩
  refine ⟨rfl, ?_, ?_, ?_, ?_, ?_, ?_⟩
  · simp [hlen]
  · intro r hr
    simp only [List.mem_append, List.mem_cons, List.mem_singleton, List.not_mem_nil,
      or_false, or_self] at hr
    rcases hr with hr | hr
    · have := hrd r hr
      omega
    · omega
  · simp [hrdl]
    omega
  · simp only [List.map_append, hwf, wordWrites_flatPos, range_four_succ]
  · intro p hp
    simp only [List.mem_append] at hp
    rcases hp with hp | hp
    · have := hwl p hp
      omega
    · have := wordWrites_lt k p hp
      omega
  · intro q c
    show ((out.set (k / 2) (wordStep k (inp.getD k 0) (out.getD (k / 2) 0))).getD q 0).testBit c = _
    by_cases hq : q = k / 2
    · subst hq
      rw [getD_set_self _ _ _ hlen', wordStep_testBit, hbits]
      by_cases hc : c < 8
      · by_cases hn : c / 4 + k % 2 = 1
        · have h1 : 8 * (k / 2) + (7 - c) < 4 * (k + 1) := by omega
          simp only [hc, hn, h1, and_self, if_true]
          rw [decodeFlat_word inp k c hc hn]
        · have h1 : ¬ (c < 8 ∧ c / 4 + k % 2 = 1) := fun h => hn h.2
          simp only [h1, if_false, hc, decide_True, Bool.true_and, true_and]
          have h2 : k / 2 < (k + 1 + 1) / 2 := by omega
          simp only [h2, if_true]
          split_ifs <;> first | rfl | omega
      · have h2 : k / 2 < (k + 1 + 1) / 2 := by omega
        simp [hc, h2]
    · rw [getD_set_ne _ _ _ _ hq, hbits]
      by_cases hc : c < 8
      · have h1 : 8 * q + (7 - c) < 4 * k ↔ 8 * q + (7 - c) < 4 * (k + 1) := by omega
        have h2 : q < (k + 1) / 2 ↔ q < (k + 1 + 1) / 2 := by omega
        simp only [hc, true_and, h1, h2]
      · have h2 : q < (k + 1) / 2 ↔ q < (k + 1 + 1) / 2 := by omega
        simp only [hc, false_and, if_false, h2]

/-- The outer loop on buffers that are large enough terminates without a fault, in a
memory that satisfies `DecodedUpTo` for all `n` words. -/
theorem outerLoop_ok (input output : List Nat) (n : Nat) (hin : n ≤ input.length)
    (hout : (n + 1) / 2 ≤ output.length) :
    ∃ m, run input n output = .ok m ∧ DecodedUpTo input output n m := by
  unfold run
  induction n with
  | zero =>
    refine ⟨_, rfl, ⟨rfl, rfl, ?_, rfl, rfl, ?_, ?_⟩⟩
    · intro r hr; simp at hr
    · intro p hp; simp at hp
    · intro q c; simp
  | succ k ih =>
    obtain ⟨m, hm, hinv⟩ := ih (by omega) (by omega)
    obtain ⟨m', hm', hinv'⟩ := decodedUpTo_step input output k m hinv (by omega) (by omega)
    refine ⟨m', ?_, hinv'⟩
    rw [outerLoop_succ, hm]
    exact hm'

theorem Code_of_run (input output : List Nat) (n : Nat) (m : Mem)
    (h : run input n output = .ok m) : Code input n output = .ok m.output := by
  unfold Code
  rw [h]
  rfl

theorem run_of_Code (input output out' : List Nat) (n : Nat)
    (h : Code input n output = .ok out') :
    ∃ m, run input n output = .ok m ∧ m.output = out' := by
  unfold Code at h
  cases hr : run input n output with
  | error e => rw [hr] at h; cases h
  | ok m =>
    rw [hr] at h
    refine ⟨m, rfl, ?_⟩
    have h' : Except.ok m.output = (Except.ok out' : Except Fault (List Nat)) := h
    exact Except.ok.inj h'

theorem innerLoop_fault_input (k : Nat) (m : Mem) (h : m.input.length ≤ k) :
    innerLoop k 129 0 m = .error .inputOutOfBounds := by
  have hlt : (0 : Nat) < numDataPrimitiveBits sizeofUint8 := by decide
  simp only [innerLoop, hlt, if_true, loopBody, List.getElem?_eq_none h]

theorem innerLoop_fault_output (k : Nat) (m : Mem) (hk : k < m.input.length)
    (h : m.output.length ≤ k / 2) :
    innerLoop k 129 0 m = .error .outputOutOfBounds := by
  have hlt : (0 : Nat) < numDataPrimitiveBits sizeofUint8 := by decide
  simp only [innerLoop, hlt, if_true, loopBody, List.getElem?_eq_getElem hk,
    outputPrimitiveIndex, List.getElem?_eq_none h]

/-- A run of the inner loop on an index outside one of the buffers is a fault. -/
theorem innerLoop_fault (k : Nat) (m : Mem)
    (h : m.input.length ≤ k ∨ m.output.length ≤ k / 2) :
    ∃ e, innerLoop k 129 0 m = .error e := by
  by_cases h1 : m.input.length ≤ k
  · exact ⟨_, innerLoop_fault_input k m h1⟩
  · have h2 : m.output.length ≤ k / 2 := by
      rcases h with h | h
      · exact absurd h h1
      · exact h
    exact ⟨_, innerLoop_fault_output k m (by omega) h2⟩

/-- A run that ends without a fault was given buffers that are large enough. -/
theorem bounds_of_run (input output : List Nat) (n : Nat) (m : Mem)
    (h : run input n output = .ok m) :
    n ≤ input.length ∧ (n + 1) / 2 ≤ output.length := by
  induction n generalizing m with
  | zero => exact ⟨Nat.zero_le _, Nat.zero_le _⟩
  | succ k ih =>
    unfold run at h ih
    rw [outerLoop_succ] at h
    cases hk : outerLoop k { input := input, output := output, reads := [], writes := [] } with
    | error e => rw [hk] at h; cases h
    | ok mk =>
      rw [hk] at h
      have hb := ih mk hk
      obtain ⟨m0, hm0, hinv⟩ := outerLoop_ok input output k hb.1 hb.2
      unfold run at hm0
      rw [hk] at hm0
      have hmk : mk = m0 := Except.ok.inj hm0
      subst hmk
      have hstep : innerLoop k 129 0 mk = .ok m := h
      by_cases hbad : mk.input.length ≤ k ∨ mk.output.length ≤ k / 2
      · obtain ⟨e, he⟩ := innerLoop_fault k mk hbad
        rw [he] at hstep
        cases hstep
      · have h1 := hinv.input_eq
        have h2 := hinv.length_eq
        rw [h1, h2] at hbad
        omega

/-- With enough input words and an output buffer of fewer than `ceil(n / 2)` words the
run makes no check: it decodes the first `2 * output.length` input words and then
accesses the output word just past the buffer. -/
theorem run_fault_of_small_output (input output : List Nat) (n : Nat)
    (hin : n ≤ input.length) (hout : output.length < (n + 1) / 2) :
    run input n output = .error .outputOutOfBounds := by
  have key : ∀ d, 2 * output.length + 1 + d ≤ input.length →
      run input (2 * output.length + 1 + d) output = .error .outputOutOfBounds := by
    intro d
    induction d with
    | zero =>
      intro hd
      obtain ⟨m, hm, hinv⟩ :=
        outerLoop_ok input output (2 * output.length) (by omega) (by omega)
      unfold run at hm ⊢
      rw [Nat.add_zero, outerLoop_succ, hm]
      have h1 := hinv.input_eq
      have h2 := hinv.length_eq
      exact innerLoop_fault_output _ m (by rw [h1]; omega) (by rw [h2]; omega)
    | succ d ih =>
      intro hd
      have := ih (by omega)
      unfold run at this ⊢
      rw [show 2 * output.length + 1 + (d + 1) = 2 * output.length + 1 + d + 1 from rfl,
        outerLoop_succ, this]
      rfl
  have h := key (n - (2 * output.length + 1)) (by omega)
  rw [show 2 * output.length + 1 + (n - (2 * output.length + 1)) = n from by omega] at h
  exact h

theorem getElem?_eq_of_getD_eq (xs ys : List Nat) (q : Nat) (hl : xs.length = ys.length)
    (h : xs.getD q 0 = ys.getD q 0) : xs[q]? = ys[q]? := by
  by_cases hq : q < xs.length
  · have hq' : q < ys.length := by omega
    simp only [List.getD_eq_getElem?_getD, List.getElem?_eq_getElem hq,
      List.getElem?_eq_getElem hq', Option.getD_some] at h
    rw [List.getElem?_eq_getElem hq, List.getElem?_eq_getElem hq', h]
  · have hq' : ys.length ≤ q := by omega
    rw [List.getElem?_eq_none (by omega), List.getElem?_eq_none hq']

/-! ## Flat bits and the encoder -/

theorem flatBit_of_decoded (input output : List Nat) (n p : Nat) (m : Mem)
    (hinv : DecodedUpTo input output n m) (hp : p < 4 * n) :
    flatBit m.output p = decodeFlat input p := by
  unfold flatBit
  rw [hinv.bits]
  have h1 : 7 - p % 8 < 8 ∧ 8 * (p / 8) + (7 - (7 - p % 8)) < 4 * n := by omega
  have h2 : 8 * (p / 8) + (7 - (7 - p % 8)) = p := by omega
  rw [if_pos h1, h2]

theorem flatBit_append_left (A B : List Nat) (p : Nat) (hp : p < 8 * A.length) :
    flatBit (A ++ B) p = flatBit A p := by
  unfold flatBit
  rw [List.getD_append A B 0 (p / 8) (by omega)]

theorem flatBit_append_right (A B : List Nat) (p : Nat) :
    flatBit (A ++ B) (8 * A.length + p) = flatBit B p := by
  unfold flatBit
  rw [List.getD_append_right A B 0 ((8 * A.length + p) / 8) (by omega)]
  have h1 : (8 * A.length + p) / 8 - A.length = p / 8 := by omega
  have h2 : (8 * A.length + p) % 8 = p % 8 := by omega
  rw [h1, h2]

theorem flatBit_word (input : List Nat) (i p : Nat) (hp : p < 8) :
    flatBit input (8 * i + p) = flatBit [input.getD i 0] p := by
  unfold flatBit
  have h1 : (8 * i + p) / 8 = i := by omega
  have h2 : (8 * i + p) % 8 = p % 8 := by omega
  have h3 : p / 8 = 0 := by omega
  rw [h1, h2, h3]
  rfl

set_option maxRecDepth 100000 in
theorem encodeWord_roundtrip :
    ∀ l : Bool, ∀ w, w < 256 → ∀ r, r < 8 →
      decodeFlat (encodeWords l [w]) r = w.testBit (7 - r) := by
  decide

theorem encodeWords_length (l : Bool) (D : List Nat) :
    (encodeWords l D).length = 2 * D.length := by
  induction D generalizing l with
  | nil => rfl
  | cons w ws ih =>
    simp only [encodeWords, List.length_cons, ih]
    omega

/-- The two encoded words of data word `q` are the encoding of that word alone, started
at the level the encoder has reached there. -/
theorem encodeWords_getD (D : List Nat) (l : Bool) (q : Nat) (hq : q < D.length) :
    ∃ l', (encodeWords l D).getD (2 * q) 0 = (encodeWords l' [D.getD q 0]).getD 0 0 ∧
      (encodeWords l D).getD (2 * q + 1) 0 = (encodeWords l' [D.getD q 0]).getD 1 0 := by
  induction D generalizing l q with
  | nil => simp at hq
  | cons w ws ih =>
    cases q with
    | zero => exact ⟨l, rfl, rfl⟩
    | succ q =>
      have hq' : q < ws.length := by simpa using hq
      obtain ⟨l', h1, h2⟩ := ih ((encodeBits l (wordBits w)).getLastD l) q hq'
      refine ⟨l', ?_, ?_⟩
      · rw [show 2 * (q + 1) = 2 * q + 1 + 1 from by ring]
        simpa [encodeWords] using h1
      · rw [show 2 * (q + 1) + 1 = 2 * q + 1 + 1 + 1 from by ring]
        simpa [encodeWords] using h2

theorem flatBit_pair (E : List Nat) (q s : Nat) (hs : s < 16) :
    flatBit E (16 * q + s) = flatBit [E.getD (2 * q) 0, E.getD (2 * q + 1) 0] s := by
  unfold flatBit
  have h2 : (16 * q + s) % 8 = s % 8 := by omega
  rw [h2]
  by_cases h : s < 8
  · have h1 : (16 * q + s) / 8 = 2 * q := by omega
    have h3 : s / 8 = 0 := by omega
    rw [h1, h3]
    rfl
  · have h1 : (16 * q + s) / 8 = 2 * q + 1 := by omega
    have h3 : s / 8 = 1 := by omega
    rw [h1, h3]
    rfl

theorem decodeFlat_encodeWords (D : List Nat) (l : Bool) (hD : ∀ w ∈ D, w < 256)
    (q r : Nat) (hq : q < D.length) (hr : r < 8) (rest : List Nat) :
    decodeFlat (encodeWords l D ++ rest) (8 * q + r) = (D.getD q 0).testBit (7 - r) := by
  obtain ⟨l', h0, h1⟩ := encodeWords_getD D l q hq
  have hlen := encodeWords_length l D
  have hw : D.getD q 0 < 256 := by
    apply hD
    simp [List.getD_eq_getElem?_getD, List.getElem?_eq_getElem hq]
  have hpair : [(encodeWords l D).getD (2 * q) 0, (encodeWords l D).getD (2 * q + 1) 0]
      = encodeWords l' [D.getD q 0] := by
    rw [h0, h1]
    rfl
  rw [← encodeWord_roundtrip l' (D.getD q 0) hw r hr]
  unfold decodeFlat
  rw [flatBit_append_left _ _ _ (by omega), flatBit_append_left _ _ _ (by omega),
    show 2 * (8 * q + r) = 16 * q + 2 * r from by ring,
    show 16 * q + 2 * r + 1 = 16 * q + (2 * r + 1) from by ring,
    flatBit_pair _ q (2 * r) (by omega), flatBit_pair _ q (2 * r + 1) (by omega), hpair]

/-! ## Index widths, polarity, parity and bit ranges -/

/-- For a data type of 1 to 31 bytes (`W = 8, 16, ..., 248` bits) the `uint8_t` index
arithmetic of `Code` is exact: `numDataPrimitiveBits = W`, `maxBitIndex = W - 1`, the
inner loop visits `j = 0, 2, ..., W - 2`, and for these `j` and every `i` both `inputBit`
and `outputBit` have their mathematical values, inside `[0, W - 1]`. -/
theorem index_arithmetic_exact (s : Nat) (hs : 1 ≤ s) (hs' : s ≤ 31) :
    numDataPrimitiveBits s = 8 * s ∧ maxBitIndex s = 8 * s - 1 ∧
      innerCounters s 129 0 = (List.range (4 * s)).map (fun k => 2 * k) ∧
      ∀ i j, j ∈ (List.range (4 * s)).map (fun k => 2 * k) →
        inputBit s j = 8 * s - 2 - j ∧
        outputBit s i j = (8 * s - 1) - ((i % 2) * (8 * s) + j) / 2 ∧
        inputBit s j ≤ 8 * s - 1 ∧ outputBit s i j ≤ 8 * s - 1 := by
  have hnb : numDataPrimitiveBits s = 8 * s := by
    unfold numDataPrimitiveBits uint8
    omega
  have hmax : maxBitIndex s = 8 * s - 1 := by
    unfold maxBitIndex
    rw [hnb]
    unfold uint8
    omega
  refine ⟨hnb, hmax, ?_, ?_⟩
  · interval_cases s <;> decide
  · intro i j hj
    simp only [List.mem_map, List.mem_range] at hj
    obtain ⟨k, hk, rfl⟩ := hj
    have hin : inputBit s (2 * k) = 8 * s - 2 - 2 * k := by
      unfold inputBit
      rw [hnb]
      unfold uint8
      omega
    have hout : outputBit s i (2 * k) = (8 * s - 1) - ((i % 2) * (8 * s) + 2 * k) / 2 := by
      unfold outputBit
      rw [hnb, hmax]
      unfold uint8
      rcases Nat.mod_two_eq_zero_or_one i with hi | hi <;> rw [hi] <;> omega
    refine ⟨hin, hout, by omega, by omega⟩

theorem testBit_complement8 (w c : Nat) :
    (complement8 w).testBit c = (decide (c < 8) && !w.testBit c) := by
  unfold complement8
  rw [testBit_mod_256, Nat.testBit_xor, testBit_allOnes32]
  by_cases hc : c < 8
  · have hc32 : c < 32 := by omega
    cases w.testBit c <;> simp [hc, hc32]
  · simp [hc]

theorem decodedBit_complement8 (w j : Nat) (hj : j % 2 = 0) (hj8 : j < 8) :
    decodedBit (complement8 w) j = decodedBit w j := by
  have h7 : j < 7 := by omega
  rw [decodedBit_eq _ j h7, decodedBit_eq _ j h7, testBit_complement8, testBit_complement8]
  have h1 : 7 - j < 8 := by omega
  have h2 : 6 - j < 8 := by omega
  cases w.testBit (7 - j) <;> cases w.testBit (6 - j) <;> simp [h1, h2]

/-- The loop body on the complemented input does what it does on the input itself; only
the input field of the memory differs. -/
theorem loopBody_complement8 (i j : Nat) (inp out rd : List Nat) (wr : List (Nat × Nat))
    (hj : j % 2 = 0) (hj8 : j < 8) :
    loopBody i j ⟨inp.map complement8, out, rd, wr⟩ =
      (loopBody i j ⟨inp, out, rd, wr⟩).map
        (fun r => { r with input := r.input.map complement8 }) := by
  unfold loopBody
  simp only [List.getElem?_map]
  cases hw : inp[i]? with
  | none => rfl
  | some w =>
    cases ht : out[outputPrimitiveIndex i]? with
    | none => rfl
    | some t =>
      have hd := decodedBit_complement8 w j hj hj8
      unfold decodedBit at hd
      simp only [Option.map_some', Except.map, hd]

theorem innerLoop_complement8 (i fuel j : Nat) (inp out rd : List Nat)
    (wr : List (Nat × Nat)) (hj : j % 2 = 0) :
    innerLoop i fuel j ⟨inp.map complement8, out, rd, wr⟩ =
      (innerLoop i fuel j ⟨inp, out, rd, wr⟩).map
        (fun r => { r with input := r.input.map complement8 }) := by
  induction fuel generalizing j out rd wr with
  | zero => rfl
  | succ fuel ih =>
    by_cases hj8 : j < 8
    · have hnext : uint8 ((j : Int) + 2) = j + 2 := by
        unfold uint8
        omega
      simp only [innerLoop, numBits_eq, hj8, if_true, loopBody_complement8 i j inp out rd wr hj hj8]
      cases hb : loopBody i j ⟨inp, out, rd, wr⟩ with
      | error e => rfl
      | ok m' =>
        obtain ⟨inp', out', rd', wr'⟩ := m'
        have hinp : inp' = inp := by
          unfold loopBody at hb
          simp only at hb
          split at hb
          · cases hb
          · split at hb
            · cases hb
            · have := Except.ok.inj hb
              exact (congrArg Mem.input this).symm
        subst hinp
        simp only [Except.map, hnext]
        exact ih (j + 2) out' rd' wr' (by omega)
    · simp only [innerLoop, numBits_eq, hj8, if_false]
      rfl

theorem outerLoop_complement8 (n : Nat) (inp out rd : List Nat) (wr : List (Nat × Nat)) :
    outerLoop n ⟨inp.map complement8, out, rd, wr⟩ =
      (outerLoop n ⟨inp, out, rd, wr⟩).map
        (fun r => { r with input := r.input.map complement8 }) := by
  induction n with
  | zero => rfl
  | succ k ih =>
    rw [outerLoop_succ, outerLoop_succ, ih]
    cases outerLoop k ⟨inp, out, rd, wr⟩ with
    | error e => rfl
    | ok m =>
      obtain ⟨inp', out', rd', wr'⟩ := m
      exact innerLoop_complement8 k 129 0 inp' out' rd' wr' rfl

set_option maxRecDepth 100000 in
theorem parity_even_table : ∀ data, data < 256 →
    __binary_parity_even sizeofUint8 data = some (xorBits8 data).toNat ∧
      __binary_parity_even sizeofUint8 data = some (popcount8 data % 2) := by
  decide

theorem parity_of_table (data : Nat) (p : Nat)
    (h : __binary_parity_even sizeofUint8 data = some p) :
    __binary_parity_odd sizeofUint8 data = some (if p = 0 then 1 else 0) := by
  unfold __binary_parity_odd
  rw [h]
  rfl

theorem testBit_of_lt_256 (t c : Nat) (ht : t < 256) (hc : 8 ≤ c) : t.testBit c = false := by
  apply Nat.testBit_lt_two_pow
  calc t < 256 := ht
    _ = 2 ^ 8 := by norm_num
    _ ≤ 2 ^ c := Nat.pow_le_pow_right (by norm_num) hc

theorem BC_congr (x y b : Nat) (h : x.testBit b = y.testBit b) : _BC x b = _BC y b := by
  rw [BC_eq, BC_eq, h]

theorem testBit_BM (o l c : Nat) : (_BM o l).testBit c = decide (o ≤ c ∧ c < o + l) := by
  unfold _BM
  rw [Nat.testBit_shiftLeft, Nat.one_shiftLeft, Nat.testBit_two_pow_sub_one]
  by_cases h1 : o ≤ c
  · by_cases h2 : c - o < l
    · have : c < o + l := by omega
      simp [h1, h2, this]
    · have : ¬ c < o + l := by omega
      simp [h1, h2, this]
  · simp [h1]

theorem testBit_BR (o l v c : Nat) (hol : o + l ≤ 32) :
    (_BR o l v).testBit c = (decide (o ≤ c ∧ c < o + l) && v.testBit (c - o)) := by
  unfold _BR
  rw [Nat.testBit_and, testBit_BM, Nat.testBit_mod_two_pow, Nat.testBit_shiftLeft]
  by_cases h : o ≤ c ∧ c < o + l
  · have h32 : c < 32 := by omega
    simp [h, h32, h.1]
  · simp [h]

/-- Bit `c` of a word after `_BSR`: inside the range a bit of `value`, outside the bit it
was, and nothing above bit 7. -/
theorem testBit_BSR (t o l v c : Nat) (hol : o + l ≤ 32) :
    (_BSR t o l v).testBit c =
      (decide (c < 8) &&
        (if o ≤ c ∧ c < o + l then v.testBit (c - o) else t.testBit c)) := by
  unfold _BSR
  rw [testBit_mod_256, Nat.testBit_or, Nat.testBit_and, Nat.testBit_xor, testBit_allOnes32,
    testBit_BM, testBit_BR o l v c hol]
  by_cases hc : c < 8
  · have h32 : c < 32 := by omega
    by_cases h : o ≤ c ∧ c < o + l
    · simp [hc, h32, h]
    · simp [hc, h32, h]
  · simp [hc]

/-! ## The claims -/

/-- C1. Flat-stream transition semantics of the decoder for 8 bit words: when `input`
holds at least `n` words, `n` fits the index type and `output` holds at least
`ceil(n / 2)` words, `Code(input, n, output)` returns, and for every `p < 4 n` flat bit
`p` of the result is set exactly when flat bits `2 p` and `2 p + 1` of the input differ. -/
theorem C1_Code_flat_transition (input output : List Nat) (n p : Nat)
    (hin : n ≤ input.length) (_hfit : n < 256) (hout : (n + 1) / 2 ≤ output.length)
    (hp : p < 4 * n) :
    ∃ out', Code input n output = .ok out' ∧
      flatBit out' p = (flatBit input (2 * p) != flatBit input (2 * p + 1)) := by
  obtain ⟨m, hm, hinv⟩ := outerLoop_ok input output n hin hout
  exact ⟨m.output, Code_of_run input output n m hm,
    flatBit_of_decoded input output n p m hinv hp⟩

/-- Witness of C1: the single word `0b10011001` decoded into a zeroed word, flat bit 0. -/
theorem C1_Code_flat_transition_witness :
    (1 ≤ [0x99].length ∧ 1 < 256 ∧ (1 + 1) / 2 ≤ [0].length ∧ 0 < 4 * 1) ∧
      ∃ out', Code [0x99] 1 [0] = .ok out' ∧
        flatBit out' 0 = (flatBit [0x99] (2 * 0) != flatBit [0x99] (2 * 0 + 1)) :=
  ⟨by decide, C1_Code_flat_transition [0x99] [0] 1 0 (by decide) (by decide) (by decide)
    (by decide)⟩

/-- C2, as stated, fails: decoding the single word `0b10011001` into a zeroed output
word does not give `0b00001111`. -/
theorem C2_scenario_counterexample :
    ¬ ∃ out', Code [0x99] 1 [0] = .ok out' ∧ out'[0]? = some 0x0F := by
  rintro ⟨out', h, h0⟩
  have h' : (Except.ok [0xF0] : Except Fault (List Nat)) = .ok out' := h
  have e : [0xF0] = out' := Except.ok.inj h'
  subst e
  simp at h0

/-- C2, amended: decoding the single word `0b10011001` (`inLength = 1`) into a zeroed
output word gives `0b11110000`: the four decoded bits `1, 1, 1, 1` fill the high nibble,
as the MSB-first flat order asks, and the low nibble keeps its zeros. -/
theorem C2_scenario_high_nibble : Code [0x99] 1 [0] = .ok [0xF0] := rfl

/-- C3. Round-trip law, with the encoder as the specification describes it: for every
data stream `D` of 8 bit words, every initial level of the encoder and all buffers that
are large enough, `Encode` returns an encoded stream `E`, and the decoder's `Code` on the
`2 |D|` words of `E` returns `D` in the first `|D|` words of its output buffer (the rest
of the buffer as it was). -/
theorem C3_Code_Encode_roundtrip (initialLevel : Bool) (D outE out : List Nat)
    (hD : ∀ w ∈ D, w < 256) (hE : 2 * D.length ≤ outE.length)
    (hout : D.length ≤ out.length) :
    ∃ E, Encode initialLevel D D.length outE = .ok E ∧
      Code E (2 * D.length) out = .ok (D ++ out.drop D.length) := by
  refine ⟨encodeWords initialLevel D ++ outE.drop (2 * D.length), ?_, ?_⟩
  · unfold Encode
    rw [if_neg (by omega), if_neg (by omega), List.take_length]
  · have hlen := encodeWords_length initialLevel D
    obtain ⟨m, hm, hinv⟩ := outerLoop_ok
      (encodeWords initialLevel D ++ outE.drop (2 * D.length)) out (2 * D.length)
      (by simp [hlen]) (by omega)
    rw [Code_of_run _ _ _ m hm]
    congr 1
    apply List.ext_getElem?
    intro q
    apply getElem?_eq_of_getD_eq
    · rw [hinv.length_eq]
      simp
      omega
    apply Nat.eq_of_testBit_eq
    intro c
    rw [hinv.bits]
    by_cases hq : q < D.length
    · rw [List.getD_append D _ 0 q hq]
      by_cases hc : c < 8
      · have h1 : c < 8 ∧ 8 * q + (7 - c) < 4 * (2 * D.length) := by omega
        rw [if_pos h1, decodeFlat_encodeWords D initialLevel hD q (7 - c) hq (by omega)]
        congr 1
        omega
      · have h1 : ¬ (c < 8 ∧ 8 * q + (7 - c) < 4 * (2 * D.length)) := fun h => hc h.1
        have h2 : q < (2 * D.length + 1) / 2 := by omega
        have hw : D.getD q 0 < 256 := by
          apply hD
          simp [List.getD_eq_getElem?_getD, List.getElem?_eq_getElem hq]
        have hlt : D.getD q 0 < 2 ^ c :=
          lt_of_lt_of_le hw (by
            calc (256 : Nat) = 2 ^ 8 := by norm_num
              _ ≤ 2 ^ c := Nat.pow_le_pow_right (by norm_num) (by omega))
        rw [if_neg h1, if_pos h2, Nat.testBit_lt_two_pow hlt]
        simp [hc]
    · have h1 : ¬ (c < 8 ∧ 8 * q + (7 - c) < 4 * (2 * D.length)) := by omega
      have h2 : ¬ q < (2 * D.length + 1) / 2 := by omega
      rw [if_neg h1, if_neg h2, List.getD_append_right D _ 0 q (by omega)]
      simp only [List.getD_eq_getElem?_getD, List.getElem?_drop]
      congr 3
      omega

/-- Witness of C3: the data stream `[0xA5, 0x3C]`, encoded from level 0 into four words
and decoded into two. -/
theorem C3_Code_Encode_roundtrip_witness :
    ((∀ w ∈ [0xA5, 0x3C], w < 256) ∧ 2 * [0xA5, 0x3C].length ≤ [0, 0, 0, 0].length ∧
        [0xA5, 0x3C].length ≤ [0, 0].length) ∧
      ∃ E, Encode false [0xA5, 0x3C] [0xA5, 0x3C].length [0, 0, 0, 0] = .ok E ∧
        Code E (2 * [0xA5, 0x3C].length) [0, 0]
          = .ok ([0xA5, 0x3C] ++ ([0, 0] : List Nat).drop [0xA5, 0x3C].length) :=
  ⟨by decide, C3_Code_Encode_roundtrip false [0xA5, 0x3C] [0, 0, 0, 0] [0, 0] (by decide)
    (by decide) (by decide)⟩

/-- C4. Length law of the decoder for 8 bit words: on buffers that are large enough,
`Code` on `n` input words performs exactly `4 n` bit writes, no output bit is written
twice, every write is to one of the bits 7 to 0 of a word, and the flat positions
written are `0, 1, ..., 4 n - 1` (in this order), so twice the number of decoded bits is
the number `8 n` of encoded bits. -/
theorem C4_Code_length_law (input output : List Nat) (n : Nat)
    (hin : n ≤ input.length) (hout : (n + 1) / 2 ≤ output.length) :
    ∃ m, run input n output = .ok m ∧ m.writes.length = 4 * n ∧ m.writes.Nodup ∧
      (∀ w ∈ m.writes, w.2 < 8) ∧
      m.writes.map flatPos = List.range (4 * n) ∧ m.writes.length * 2 = 8 * n := by
  obtain ⟨m, hm, hinv⟩ := outerLoop_ok input output n hin hout
  have hlen : m.writes.length = 4 * n := by
    have := congrArg List.length hinv.writes_flat
    simpa using this
  refine ⟨m, hm, hlen, ?_, fun w hw => (hinv.writes_lt w hw).2, hinv.writes_flat,
    by omega⟩
  apply List.Nodup.of_map flatPos
  rw [hinv.writes_flat]
  exact List.nodup_range _

/-- Witness of C4: three input words decoded into two output words. -/
theorem C4_Code_length_law_witness :
    (3 ≤ [0x99, 0x55, 0x0F].length ∧ (3 + 1) / 2 ≤ [0, 0].length) ∧
      ∃ m, run [0x99, 0x55, 0x0F] 3 [0, 0] = .ok m ∧ m.writes.length = 4 * 3 ∧
        m.writes.Nodup ∧ (∀ w ∈ m.writes, w.2 < 8) ∧
        m.writes.map flatPos = List.range (4 * 3) ∧
        m.writes.length * 2 = 8 * 3 :=
  ⟨by decide, C4_Code_length_law [0x99, 0x55, 0x0F] [0, 0] 3 (by decide) (by decide)⟩

/-- C5. Empty input: with `inLength = 0` the decoder returns at once and the output
buffer is the one it was given, whatever the two buffers hold. -/
theorem C5_Code_empty (input output : List Nat) : Code input 0 output = .ok output := rfl

/-- C6. Frame of the decoder for 8 bit words: on buffers that are large enough, `Code`
returns with the input as it was and the output of the same length; every output bit at
a flat position from `4 n` on is unchanged, every output word of index at least
`ceil(n / 2)` keeps its value, and for odd `n` the low nibble of word `(n - 1) / 2` is
the one it was. -/
theorem C6_Code_frame (input output : List Nat) (n : Nat)
    (hin : n ≤ input.length) (hout : (n + 1) / 2 ≤ output.length) :
    ∃ m, run input n output = .ok m ∧ m.input = input ∧
      m.output.length = output.length ∧
      (∀ p, 4 * n ≤ p → flatBit m.output p = flatBit output p) ∧
      (∀ q, (n + 1) / 2 ≤ q → m.output[q]? = output[q]?) ∧
      (n % 2 = 1 → ∀ c, c < 4 →
        (m.output.getD ((n - 1) / 2) 0).testBit c = (output.getD ((n - 1) / 2) 0).testBit c) := by
  obtain ⟨m, hm, hinv⟩ := outerLoop_ok input output n hin hout
  refine ⟨m, hm, hinv.input_eq, hinv.length_eq, ?_, ?_, ?_⟩
  · intro p hp
    unfold flatBit
    rw [hinv.bits]
    have h1 : ¬ (7 - p % 8 < 8 ∧ 8 * (p / 8) + (7 - (7 - p % 8)) < 4 * n) := by omega
    have h2 : 7 - p % 8 < 8 := by omega
    rw [if_neg h1]
    split_ifs <;> simp [h2]
  · intro q hq
    apply getElem?_eq_of_getD_eq _ _ _ hinv.length_eq
    apply Nat.eq_of_testBit_eq
    intro c
    rw [hinv.bits]
    have h1 : ¬ (c < 8 ∧ 8 * q + (7 - c) < 4 * n) := by omega
    have h2 : ¬ q < (n + 1) / 2 := by omega
    rw [if_neg h1, if_neg h2]
  · intro hodd c hc
    rw [hinv.bits]
    have h1 : ¬ (c < 8 ∧ 8 * ((n - 1) / 2) + (7 - c) < 4 * n) := by omega
    have h2 : c < 8 := by omega
    rw [if_neg h1]
    split_ifs <;> simp [h2]

/-- Witness of C6: three input words decoded into a buffer of three words. -/
theorem C6_Code_frame_witness :
    (3 ≤ [0x99, 0x55, 0x0F].length ∧ (3 + 1) / 2 ≤ [1, 2, 3].length) ∧
      ∃ m, run [0x99, 0x55, 0x0F] 3 [1, 2, 3] = .ok m ∧ m.input = [0x99, 0x55, 0x0F] ∧
        m.output.length = [1, 2, 3].length ∧
        (∀ p, 4 * 3 ≤ p → flatBit m.output p = flatBit [1, 2, 3] p) ∧
        (∀ q, (3 + 1) / 2 ≤ q → m.output[q]? = [1, 2, 3][q]?) ∧
        (3 % 2 = 1 → ∀ c, c < 4 →
          (m.output.getD ((3 - 1) / 2) 0).testBit c
            = (([1, 2, 3] : List Nat).getD ((3 - 1) / 2) 0).testBit c) :=
  ⟨by decide, C6_Code_frame [0x99, 0x55, 0x0F] [1, 2, 3] 3 (by decide) (by decide)⟩

/-- C7. Bounds safety of the decoder under the capacity precondition: when `input` holds
at least `n` words and `output` at least `ceil(n / 2)`, `Code` ends without a fault, every
input index it read is below `n` (so inside `input`), and every write went to a bit
below 8 of an output word of index below `ceil(n / 2)` (so inside `output`). -/
theorem C7_Code_in_bounds (input output : List Nat) (n : Nat)
    (hin : n ≤ input.length) (hout : (n + 1) / 2 ≤ output.length) :
    ∃ m, run input n output = .ok m ∧ m.reads.length = 8 * n ∧
      (∀ r ∈ m.reads, r < n ∧ r < input.length) ∧
      (∀ w ∈ m.writes, w.1 < (n + 1) / 2 ∧ w.1 < output.length ∧ w.2 < 8) := by
  obtain ⟨m, hm, hinv⟩ := outerLoop_ok input output n hin hout
  refine ⟨m, hm, hinv.reads_length, ?_, ?_⟩
  · intro r hr
    have := hinv.reads_lt r hr
    omega
  · intro w hw
    have := hinv.writes_lt w hw
    omega

/-- Witness of C7: three input words decoded into two output words. -/
theorem C7_Code_in_bounds_witness :
    (3 ≤ [0x99, 0x55, 0x0F].length ∧ (3 + 1) / 2 ≤ [0, 0].length) ∧
      ∃ m, run [0x99, 0x55, 0x0F] 3 [0, 0] = .ok m ∧ m.reads.length = 8 * 3 ∧
        (∀ r ∈ m.reads, r < 3 ∧ r < [0x99, 0x55, 0x0F].length) ∧
        (∀ w ∈ m.writes, w.1 < (3 + 1) / 2 ∧ w.1 < [0, 0].length ∧ w.2 < 8) :=
  ⟨by decide, C7_Code_in_bounds [0x99, 0x55, 0x0F] [0, 0] 3 (by decide) (by decide)⟩

/-- C8, the code at a failing input: three input words need two output words, and with
an output buffer of one word the decoder makes no check and raises nothing; it decodes
words 0 and 1 into `output[0]` (four writes each) and then, for `i = 2`, accesses
`output[1]`, past the buffer. The fault of the embedding stands for this access, which
the C++ code performs unchecked. -/
theorem C8_Code_writes_past_buffer :
    Code [0, 0, 0] 3 [0] = .error .outputOutOfBounds ∧
      (∃ m, run [0, 0, 0] 2 [0] = .ok m ∧ m.writes.length = 8) ∧
      outputPrimitiveIndex 2 = 1 ∧ ([0] : List Nat)[outputPrimitiveIndex 2]? = none :=
  ⟨rfl, ⟨_, rfl, rfl⟩, rfl, rfl⟩

/-- C9. Idempotence of the decoder: when `Code(input, n, output)` returns the buffer
`out'`, running `Code` again with the same `input` and `n` on `out'` returns `out'`. -/
theorem C9_Code_idempotent (input output out' : List Nat) (n : Nat)
    (h : Code input n output = .ok out') : Code input n out' = .ok out' := by
  obtain ⟨m, hm, hout'⟩ := run_of_Code input output out' n h
  have hb := bounds_of_run input output n m hm
  obtain ⟨m1, hm1, hinv1⟩ := outerLoop_ok input output n hb.1 hb.2
  rw [hm] at hm1
  have e1 : m = m1 := Except.ok.inj hm1
  subst e1
  subst hout'
  have hl := hinv1.length_eq
  obtain ⟨m2, hm2, hinv2⟩ := outerLoop_ok input m.output n hb.1 (by omega)
  rw [Code_of_run input m.output n m2 hm2]
  congr 1
  apply List.ext_getElem?
  intro q
  apply getElem?_eq_of_getD_eq _ _ _ hinv2.length_eq
  apply Nat.eq_of_testBit_eq
  intro c
  rw [hinv2.bits, hinv1.bits]
  split_ifs <;> simp

/-- Witness of C9: the word `0b10011001` decoded into a zeroed word, twice. -/
theorem C9_Code_idempotent_witness :
    Code [0x99] 1 [0] = .ok [0xF0] ∧ Code [0x99] 1 [0xF0] = .ok [0xF0] :=
  ⟨rfl, C9_Code_idempotent [0x99] [0] [0xF0] 1 rfl⟩

/-- C10. Word-boundary independence of the decoder for 8 bit words: for encoded word
sequences `A` and `B` of any lengths, decoded into buffers that are large enough, the
first `4 |A|` flat bits of decoding `A ++ B` are the decoded bits of `A` and the next
`4 |B|` are the decoded bits of `B`, also when `|A|` is odd and the bits of `B` start in
the middle of an output word; and the four decoded bits of input word `i` are those of
decoding the one word `input[i]` alone. -/
theorem C10_Code_boundary_independent (A B outAB outA outB outW : List Nat)
    (hAB : (A.length + B.length + 1) / 2 ≤ outAB.length)
    (hA : (A.length + 1) / 2 ≤ outA.length) (hB : (B.length + 1) / 2 ≤ outB.length)
    (hW : 1 ≤ outW.length) :
    ∃ rAB rA rB, Code (A ++ B) (A.length + B.length) outAB = .ok rAB ∧
      Code A A.length outA = .ok rA ∧ Code B B.length outB = .ok rB ∧
      (∀ p, p < 4 * A.length → flatBit rAB p = flatBit rA p) ∧
      (∀ p, p < 4 * B.length → flatBit rAB (4 * A.length + p) = flatBit rB p) ∧
      (∀ i, i < A.length + B.length → ∃ rW,
        Code [(A ++ B).getD i 0] 1 outW = .ok rW ∧
        ∀ p, p < 4 → flatBit rAB (4 * i + p) = flatBit rW p) := by
  obtain ⟨mAB, hmAB, hiAB⟩ :=
    outerLoop_ok (A ++ B) outAB (A.length + B.length) (by simp) hAB
  obtain ⟨mA, hmA, hiA⟩ := outerLoop_ok A outA A.length (le_refl _) hA
  obtain ⟨mB, hmB, hiB⟩ := outerLoop_ok B outB B.length (le_refl _) hB
  refine ⟨mAB.output, mA.output, mB.output, Code_of_run _ _ _ _ hmAB,
    Code_of_run _ _ _ _ hmA, Code_of_run _ _ _ _ hmB, ?_, ?_, ?_⟩
  · intro p hp
    rw [flatBit_of_decoded _ _ _ p _ hiAB (by omega), flatBit_of_decoded _ _ _ p _ hiA hp]
    unfold decodeFlat
    rw [flatBit_append_left A B (2 * p) (by omega),
      flatBit_append_left A B (2 * p + 1) (by omega)]
  · intro p hp
    rw [flatBit_of_decoded _ _ _ _ _ hiAB (by omega), flatBit_of_decoded _ _ _ p _ hiB hp]
    unfold decodeFlat
    rw [show 2 * (4 * A.length + p) = 8 * A.length + 2 * p from by ring,
      show 8 * A.length + 2 * p + 1 = 8 * A.length + (2 * p + 1) from by ring,
      flatBit_append_right, flatBit_append_right]
  · intro i hi
    obtain ⟨mW, hmW, hiW⟩ :=
      outerLoop_ok [(A ++ B).getD i 0] outW 1 (by simp) (by simpa using hW)
    refine ⟨mW.output, Code_of_run _ _ _ _ hmW, ?_⟩
    intro p hp
    rw [flatBit_of_decoded _ _ _ _ _ hiAB (by omega),
      flatBit_of_decoded _ _ _ p _ hiW (by omega)]
    unfold decodeFlat
    rw [show 2 * (4 * i + p) = 8 * i + 2 * p from by ring,
      show 8 * i + 2 * p + 1 = 8 * i + (2 * p + 1) from by ring,
      flatBit_word (A ++ B) i (2 * p) (by omega),
      flatBit_word (A ++ B) i (2 * p + 1) (by omega)]

/-- Witness of C10: `A` of one word, so that the bits of `B` start in the low nibble of
output word 0. -/
theorem C10_Code_boundary_independent_witness :
    ((([0x99] : List Nat).length + [0x55, 0x0F].length + 1) / 2 ≤ [0, 0].length ∧
        (([0x99] : List Nat).length + 1) / 2 ≤ [0].length ∧
        (([0x55, 0x0F] : List Nat).length + 1) / 2 ≤ [0].length ∧ 1 ≤ [0].length) ∧
      ∃ rAB rA rB,
        Code ([0x99] ++ [0x55, 0x0F]) ([0x99].length + [0x55, 0x0F].length) [0, 0] = .ok rAB ∧
        Code [0x99] [0x99].length [0] = .ok rA ∧
        Code [0x55, 0x0F] [0x55, 0x0F].length [0] = .ok rB ∧
        (∀ p, p < 4 * [0x99].length → flatBit rAB p = flatBit rA p) ∧
        (∀ p, p < 4 * [0x55, 0x0F].length →
          flatBit rAB (4 * [0x99].length + p) = flatBit rB p) ∧
        (∀ i, i < [0x99].length + [0x55, 0x0F].length → ∃ rW,
          Code [([0x99] ++ [0x55, 0x0F]).getD i 0] 1 [0] = .ok rW ∧
          ∀ p, p < 4 → flatBit rAB (4 * i + p) = flatBit rW p) :=
  ⟨by decide, C10_Code_boundary_independent [0x99] [0x55, 0x0F] [0, 0] [0] [0] [0]
    (by decide) (by decide) (by decide) (by decide)⟩

/-- C11, the code at the failing width: for a data type of 32 bytes (`W = 256`)
`sizeof(DATA_PRIMITIVE_TYPE) * 8` does not fit the `uint8_t` it is stored in:
`numDataPrimitiveBits` is `0` and not `256`, `maxBitIndex` is `255`, and the inner loop
visits no `j` at all instead of `0, 2, ..., 254`. -/
theorem C11_index_arithmetic_wraps_at_256 :
    numDataPrimitiveBits 32 = 0 ∧ numDataPrimitiveBits 32 ≠ 8 * 32 ∧
      maxBitIndex 32 = 255 ∧ innerCounters 32 129 0 = [] ∧
      innerCounters 32 129 0 ≠ (List.range (4 * 32)).map (fun k => 2 * k) := by
  decide

/-- C12. The decoder overwrites its result, for 8 bit words: on buffers that are large
enough, the first `n / 2` words of `Code(input, n, out1)` and of `Code(input, n, out2)`
are equal whatever `out1` and `out2` held (for even `n` these are all decoded words, for
odd `n` the first `(n - 1) / 2`), and for odd `n` so is the high nibble, bits 7 to 4, of
word `(n - 1) / 2`. -/
theorem C12_Code_overwrites (input out1 out2 : List Nat) (n : Nat)
    (hin : n ≤ input.length) (h1 : (n + 1) / 2 ≤ out1.length)
    (h2 : (n + 1) / 2 ≤ out2.length) :
    ∃ r1 r2, Code input n out1 = .ok r1 ∧ Code input n out2 = .ok r2 ∧
      r1.take (n / 2) = r2.take (n / 2) ∧
      (n % 2 = 1 → ∀ c, 4 ≤ c → c < 8 →
        (r1.getD ((n - 1) / 2) 0).testBit c = (r2.getD ((n - 1) / 2) 0).testBit c) := by
  obtain ⟨m1, hm1, hi1⟩ := outerLoop_ok input out1 n hin h1
  obtain ⟨m2, hm2, hi2⟩ := outerLoop_ok input out2 n hin h2
  refine ⟨m1.output, m2.output, Code_of_run _ _ _ _ hm1, Code_of_run _ _ _ _ hm2, ?_, ?_⟩
  · have hl1 := hi1.length_eq
    have hl2 := hi2.length_eq
    apply List.ext_getElem?
    intro q
    by_cases hq : q < n / 2
    · rw [List.getElem?_take_of_lt hq, List.getElem?_take_of_lt hq]
      have e1 : m1.output[q]? = some (m1.output.getD q 0) := by
        simp [List.getD_eq_getElem?_getD, List.getElem?_eq_getElem (show q < m1.output.length by omega)]
      have e2 : m2.output[q]? = some (m2.output.getD q 0) := by
        simp [List.getD_eq_getElem?_getD, List.getElem?_eq_getElem (show q < m2.output.length by omega)]
      rw [e1, e2]
      congr 1
      apply Nat.eq_of_testBit_eq
      intro c
      rw [hi1.bits, hi2.bits]
      by_cases hc : c < 8
      · have hpos : c < 8 ∧ 8 * q + (7 - c) < 4 * n := by omega
        rw [if_pos hpos, if_pos hpos]
      · have hneg : ¬ (c < 8 ∧ 8 * q + (7 - c) < 4 * n) := fun h => hc h.1
        have hq' : q < (n + 1) / 2 := by omega
        rw [if_neg hneg, if_neg hneg, if_pos hq', if_pos hq']
        simp [hc]
    · rw [List.getElem?_take_eq_none (by omega), List.getElem?_take_eq_none (by omega)]
  · intro hodd c hc4 hc8
    rw [hi1.bits, hi2.bits]
    have hpos : c < 8 ∧ 8 * ((n - 1) / 2) + (7 - c) < 4 * n := by omega
    rw [if_pos hpos, if_pos hpos]

/-- Witness of C12: three input words decoded into two different buffers of two words. -/
theorem C12_Code_overwrites_witness :
    (3 ≤ [0x99, 0x55, 0x0F].length ∧ (3 + 1) / 2 ≤ [0, 0].length ∧
        (3 + 1) / 2 ≤ [0xFF, 0xFF].length) ∧
      ∃ r1 r2, Code [0x99, 0x55, 0x0F] 3 [0, 0] = .ok r1 ∧
        Code [0x99, 0x55, 0x0F] 3 [0xFF, 0xFF] = .ok r2 ∧
        r1.take (3 / 2) = r2.take (3 / 2) ∧
        (3 % 2 = 1 → ∀ c, 4 ≤ c → c < 8 →
          (r1.getD ((3 - 1) / 2) 0).testBit c = (r2.getD ((3 - 1) / 2) 0).testBit c) :=
  ⟨by decide, C12_Code_overwrites [0x99, 0x55, 0x0F] [0, 0] [0xFF, 0xFF] 3 (by decide)
    (by decide) (by decide)⟩

/-- C13. Polarity independence of the decoder for 8 bit words: decoding the bitwise
complement of every input word gives the same result as decoding the input itself, the
same output buffer when the call returns and the same fault when it does not. -/
theorem C13_Code_polarity_independent (input output : List Nat) (n : Nat) :
    Code (input.map complement8) n output = Code input n output := by
  unfold Code run
  rw [outerLoop_complement8]
  cases outerLoop n ⟨input, output, [], []⟩ <;> rfl

/-- C14. Even parity of an 8 bit word: `__binary_parity_even(data)` returns, its value is
the exclusive or of the 8 bits of `data`, which is the number of set bits modulo 2 (so
`1` exactly when that number is odd), and `data` together with the returned bit holds an
even number of ones. -/
theorem C14_binary_parity_even (data : Nat) (h : data < 256) :
    ∃ p, __binary_parity_even sizeofUint8 data = some p ∧
      p = (xorBits8 data).toNat ∧ p = popcount8 data % 2 ∧
      (p = 1 ↔ popcount8 data % 2 = 1) ∧ (popcount8 data + p) % 2 = 0 := by
  obtain ⟨hx, hp⟩ := parity_even_table data h
  refine ⟨popcount8 data % 2, hp, ?_, rfl, Iff.rfl, by omega⟩
  rw [hp] at hx
  exact Option.some.inj hx

/-- Witness of C14: the word `0b00000111`, with three set bits. -/
theorem C14_binary_parity_even_witness :
    7 < 256 ∧
      ∃ p, __binary_parity_even sizeofUint8 7 = some p ∧
        p = (xorBits8 7).toNat ∧ p = popcount8 7 % 2 ∧
        (p = 1 ↔ popcount8 7 % 2 = 1) ∧ (popcount8 7 + p) % 2 = 0 :=
  ⟨by decide, C14_binary_parity_even 7 (by decide)⟩

/-- C15. Single bit set then test, on an 8 bit word: for `b` from 0 to 7, after
`_BS(t, b, v)` the test `_BC(t, b)` gives `1` when `v` is true and `0` when it is false,
and every other bit of `t` is the one it was (as a bit, and as seen by `_BC`). -/
theorem C15_BS_then_BC (t b : Nat) (v : Bool) (ht : t < 256) (hb : b ≤ 7) :
    _BC (_BS t b v) b = (if v then 1 else 0) ∧
      ∀ b', b' ≠ b →
        (_BS t b v).testBit b' = t.testBit b' ∧ _BC (_BS t b v) b' = _BC t b' := by
  constructor
  · rw [BC_eq, BS_testBit]
    have : b < 8 := by omega
    cases v <;> simp [this]
  · intro b' hne
    have hbit : (_BS t b v).testBit b' = t.testBit b' := by
      rw [BS_testBit, if_neg hne]
      by_cases h8 : b' < 8
      · simp [h8]
      · rw [testBit_of_lt_256 t b' ht (by omega)]
        simp
    exact ⟨hbit, BC_congr _ _ _ hbit⟩

/-- Witness of C15: bit 3 of `0b10100101` set, then tested. -/
theorem C15_BS_then_BC_witness :
    (0xA5 < 256 ∧ 3 ≤ 7) ∧
      (_BC (_BS 0xA5 3 true) 3 = (if true then 1 else 0) ∧
        ∀ b', b' ≠ 3 →
          (_BS 0xA5 3 true).testBit b' = (0xA5 : Nat).testBit b' ∧
            _BC (_BS 0xA5 3 true) b' = _BC 0xA5 b') :=
  ⟨by decide, C15_BS_then_BC 0xA5 3 true (by decide) (by decide)⟩

/-- C16. Bit range set then test, on an 8 bit word: for `length ≥ 1` and
`lsbOffset + length ≤ 8`, after `_BSR(t, lsbOffset, length, value)` the range test
`_BCR(t, lsbOffset, length)` gives `value mod 2 ^ length`, and every bit of `t` outside
positions `lsbOffset` to `lsbOffset + length - 1` is the one it was. -/
theorem C16_BSR_then_BCR (t lsbOffset length value : Nat) (ht : t < 256)
    (_hl : 1 ≤ length) (hol : lsbOffset + length ≤ 8) :
    _BCR (_BSR t lsbOffset length value) lsbOffset length = value % 2 ^ length ∧
      ∀ c, (c < lsbOffset ∨ lsbOffset + length ≤ c) →
        (_BSR t lsbOffset length value).testBit c = t.testBit c := by
  constructor
  · apply Nat.eq_of_testBit_eq
    intro i
    unfold _BCR
    rw [Nat.testBit_shiftRight, Nat.testBit_and, testBit_BM,
      testBit_BSR t lsbOffset length value _ (by omega), Nat.testBit_mod_two_pow]
    by_cases hi : i < length
    · have h1 : lsbOffset + i < 8 := by omega
      have h2 : lsbOffset ≤ lsbOffset + i ∧ lsbOffset + i < lsbOffset + length := by omega
      have h3 : lsbOffset + i - lsbOffset = i := by omega
      simp [hi, h1, h2, h3]
    · have h2 : ¬ (lsbOffset ≤ lsbOffset + i ∧ lsbOffset + i < lsbOffset + length) := by
        omega
      simp [hi, h2]
  · intro c hc
    rw [testBit_BSR t lsbOffset length value c (by omega)]
    have h : ¬ (lsbOffset ≤ c ∧ c < lsbOffset + length) := by omega
    rw [if_neg h]
    by_cases h8 : c < 8
    · simp [h8]
    · rw [testBit_of_lt_256 t c ht (by omega)]
      simp

/-- Witness of C16: the three bits 4 to 2 of `0b11111111` set from the value `0b1010`, of
which the low three bits `0b010` are stored. -/
theorem C16_BSR_then_BCR_witness :
    (0xFF < 256 ∧ 1 ≤ 3 ∧ 2 + 3 ≤ 8) ∧
      (_BCR (_BSR 0xFF 2 3 0b1010) 2 3 = 0b1010 % 2 ^ 3 ∧
        ∀ c, (c < 2 ∨ 2 + 3 ≤ c) →
          (_BSR 0xFF 2 3 0b1010).testBit c = (0xFF : Nat).testBit c) :=
  ⟨by decide, C16_BSR_then_BCR 0xFF 2 3 0b1010 (by decide) (by decide) (by decide)⟩

/-- C17. Odd parity of an 8 bit word: `__binary_parity_odd(data)` returns `0` or `1`, it
is `1` minus the value of `__binary_parity_even(data)`, and it is `1` exactly when `data`
has an even number of set bits. -/
theorem C17_binary_parity_odd (data : Nat) (h : data < 256) :
    ∃ e o, __binary_parity_even sizeofUint8 data = some e ∧
      __binary_parity_odd sizeofUint8 data = some o ∧
      (o = 0 ∨ o = 1) ∧ o = 1 - e ∧ e = popcount8 data % 2 ∧
      (o = 1 ↔ popcount8 data % 2 = 0) := by
  obtain ⟨_, hp⟩ := parity_even_table data h
  have ho := parity_of_table data _ hp
  refine ⟨_, _, hp, ho, ?_, ?_, rfl, ?_⟩
  · split <;> simp
  · split <;> omega
  · split <;> omega

/-- Witness of C17: the word `0b00000111`, with three set bits. -/
theorem C17_binary_parity_odd_witness :
    7 < 256 ∧
      ∃ e o, __binary_parity_even sizeofUint8 7 = some e ∧
        __binary_parity_odd sizeofUint8 7 = some o ∧
        (o = 0 ∨ o = 1) ∧ o = 1 - e ∧ e = popcount8 7 % 2 ∧
        (o = 1 ↔ popcount8 7 % 2 = 0) :=
  ⟨by decide, C17_binary_parity_odd 7 (by decide)⟩

end ManchesterDifferential
